import Mathlib

/-!
Verification of the chunked QR-code file-transfer protocol implemented by
`src/client/src/main.rs` (encoder/sender) and `src/server/src/main.rs`
(receiver).  Byte buffers and Rust strings are modelled as `List Nat`
(their UTF-8 bytes; all protocol text is ASCII, so `from_utf8_lossy` and
`as_bytes` are identities in the model).  The external base64 crate
(`base64::engine::general_purpose::STANDARD`) is modelled faithfully:
standard alphabet, `=` padding required and canonical on decode, trailing
bits rejected.
-/

namespace ScreenTools

/-- `CHUNK_SIZE` from `src/client/src/main.rs`: number of base64 characters
stored per QR code. -/
def CHUNK_SIZE : Nat := 2000

/-- `IDLE_TIMEOUT_SECONDS` from `src/server/src/main.rs`, expressed in
milliseconds (the model measures time in milliseconds). -/
def IDLE_TIMEOUT_MS : Nat := 3000

/-- ASCII code of the base64 character for a 6-bit value, per the standard
alphabet `A-Z a-z 0-9 + /` used by `base64::engine::general_purpose::STANDARD`. -/
def b64Char (i : Nat) : Nat :=
  if i < 26 then 65 + i
  else if i < 52 then 97 + (i - 26)
  else if i < 62 then 48 + (i - 52)
  else if i = 62 then 43
  else 47

/-- Inverse alphabet lookup of the standard base64 engine: the 6-bit value of
an ASCII code, or `none` when the code is not an alphabet character. -/
def b64Val (c : Nat) : Option Nat :=
  if 65 ≤ c ∧ c ≤ 90 then some (c - 65)
  else if 97 ≤ c ∧ c ≤ 122 then some (26 + (c - 97))
  else if 48 ≤ c ∧ c ≤ 57 then some (52 + (c - 48))
  else if c = 43 then some 62
  else if c = 47 then some 63
  else none

/-- ASCII code of the padding character `=`. -/
def padChar : Nat := 61

/-- Base64 encoding of a byte list with the standard engine: bytes are taken
three at a time, a final group of one or two bytes is padded with `=` to a
four-character quantum. -/
def encodeB64 : List Nat → List Nat
  | [] => []
  | [a] => [b64Char (a / 4), b64Char (a % 4 * 16), padChar, padChar]
  | [a, b] => [b64Char (a / 4), b64Char (a % 4 * 16 + b / 16),
               b64Char (b % 16 * 4), padChar]
  | a :: b :: c :: rest =>
      b64Char (a / 4) :: b64Char (a % 4 * 16 + b / 16) ::
      b64Char (b % 16 * 4 + c / 64) :: b64Char (c % 64) :: encodeB64 rest

/-- Base64 decoding with the standard engine, which requires canonical `=`
padding (so valid input length is a multiple of four, padding only in the
final quantum) and rejects set trailing bits (`decode_allow_trailing_bits`
is false).  Returns `none` exactly when the crate returns a `DecodeError`. -/
def decodeB64 : List Nat → Option (List Nat)
  | [] => some []
  | c1 :: c2 :: c3 :: c4 :: rest =>
    match b64Val c1, b64Val c2 with
    | some v1, some v2 =>
      if c3 = padChar then
        if c4 = padChar ∧ rest = [] ∧ v2 % 16 = 0 then
          some [v1 * 4 + v2 / 16]
        else none
      else
        match b64Val c3 with
        | some v3 =>
          if c4 = padChar then
            if rest = [] ∧ v3 % 4 = 0 then
              some [v1 * 4 + v2 / 16, v2 % 16 * 16 + v3 / 4]
            else none
          else
            match b64Val c4 with
            | some v4 =>
              (decodeB64 rest).map
                (fun bs => (v1 * 4 + v2 / 16) :: (v2 % 16 * 16 + v3 / 4) ::
                           (v3 % 4 * 64 + v4) :: bs)
            | none => none
        | none => none
    | _, _ => none
  | _ => none

/-- `to_base64` from `src/client/src/main.rs`: converts a byte buffer to its
base64 string (the `Result` wrapper in the source is always `Ok`). -/
def to_base64 (data : List Nat) : List Nat := encodeB64 data

/-- `split_data` from `src/client/src/main.rs`: slices the byte view of the
string into consecutive pieces of `chunkSize` bytes (Rust `slice::chunks`;
the last piece may be shorter; `chunks` panics on size zero, which the
program never does since it passes `CHUNK_SIZE = 2000`, so the model returns
`[]` in that unreachable case).  `from_utf8_lossy` is the identity here
because the input is ASCII base64 text. -/
def split_data (data : List Nat) (chunkSize : Nat) : List (List Nat) :=
  if chunkSize = 0 then []
  else if data = [] then []
  else data.take chunkSize :: split_data (data.drop chunkSize) chunkSize
termination_by data.length
decreasing_by
  rename_i h0 h1
  simp only [List.length_drop]
  cases data with
  | nil => exact absurd rfl h1
  | cons x xs => simp; omega

/-- ASCII whitespace test matching Rust `char::is_whitespace` on the ASCII
range (space and the control characters tab through carriage return); the
protocol text is ASCII, so this is what `str::trim` removes in the model. -/
def isWs (c : Nat) : Bool := c = 32 || (9 ≤ c && c ≤ 13)

/-- Model of Rust `str::trim`: strip leading and trailing whitespace. -/
def trimAscii (s : List Nat) : List Nat :=
  ((s.dropWhile isWs).reverse.dropWhile isWs).reverse

/-- Errors of the receiver's reassembly phase in `src/server/src/main.rs`:
`emptySequenceError` is the `未接收到任何数据` error returned by
`main_with_error` when `received_chunks` is empty (the spec's
`EmptySequenceError` / `NoDataError`), and `base64DecodeError` is the
`Base64 解码失败` error from `restore_file` (the spec's `Base64DecodeError`). -/
inductive ServerError where
  | emptySequenceError
  | base64DecodeError
deriving DecidableEq, Repr

/-- `restore_file` from `src/server/src/main.rs`: join the chunks with no
separator, trim, base64-decode.  `Except.ok bytes` models a successful run
that writes exactly `bytes` to the output file; on `Except.error` nothing is
written (the source returns before `File::create`). -/
def restore_file (chunks : List (List Nat)) : Except ServerError (List Nat) :=
  let combined := chunks.flatten
  match decodeB64 (trimAscii combined) with
  | some fileData => Except.ok fileData
  | none => Except.error ServerError.base64DecodeError

/-- The reassembly phase after the receive loop in `main_with_error`
(`src/server/src/main.rs` lines 83-90): fail with the empty-sequence error
when no chunks were collected, otherwise run `restore_file`. -/
def reassemble (chunks : List (List Nat)) : Except ServerError (List Nat) :=
  if chunks = [] then Except.error ServerError.emptySequenceError
  else restore_file chunks

/-- Errors of the client's `read_file` in `src/client/src/main.rs`: the
spec's `ReadError` covers the `无法打开文件` / `无法读取文件元数据` /
`读取文件失败` failures, and `emptyInputError` is the `文件为空` failure. -/
inductive ClientError where
  | readError
  | emptyInputError
deriving DecidableEq, Repr

/-- `read_file` from `src/client/src/main.rs`, over an abstract file-system
view: `none` models a file that cannot be opened or read (open, metadata or
read failure), `some bytes` a readable file whose size (and contents) are
`bytes`.  The source rejects a zero-size file before reading it. -/
def read_file (file : Option (List Nat)) : Except ClientError (List Nat) :=
  match file with
  | none => Except.error ClientError.readError
  | some bytes =>
      if bytes.length = 0 then Except.error ClientError.emptyInputError
      else Except.ok bytes

/-- The mutable receiver state of `main_with_error` in
`src/server/src/main.rs`: `received_chunks`, `seen_hashes` (the `HashSet`
is modelled as its list of inserted elements, kept duplicate-free by the
insertion guard) and `last_data_time` (milliseconds). -/
structure ReceiverState where
  receivedChunks : List (List Nat)
  seenHashes : List Nat
  lastDataTime : Nat
deriving DecidableEq, Repr

/-- Initial receiver state: empty collections, `last_data_time` set to the
start instant `t0`. -/
def initState (t0 : Nat) : ReceiverState :=
  { receivedChunks := [], seenHashes := [], lastDataTime := t0 }

/-- Outcome of one `capture_and_detect_qr` call, the three arms matched by
the receive loop: a decoded payload (`Ok(Some(data))`), no symbol found
(`Ok(None)`), or a capture error (`Err(e)`, logged and ignored). -/
inductive TickOutcome where
  | decoded (data : List Nat)
  | noSymbol
  | captureError
deriving DecidableEq, Repr

/-- One pass of the dedup logic of the receive loop at instant `now`
(`src/server/src/main.rs` lines 46-68): on a decoded payload, hash it and,
only if the hash is new, record the hash, append the payload and reset
`last_data_time`; the other two outcomes leave the state unchanged.  The
`hash` parameter models `hash_string` (Rust's `DefaultHasher`, an external
std collaborator). -/
def processTick (hash : List Nat → Nat) (st : ReceiverState)
    (out : TickOutcome) (now : Nat) : ReceiverState :=
  match out with
  | TickOutcome.decoded data =>
      let h := hash data
      if st.seenHashes.contains h then st
      else { receivedChunks := st.receivedChunks ++ [data],
             seenHashes := h :: st.seenHashes,
             lastDataTime := now }
  | TickOutcome.noSymbol => st
  | TickOutcome.captureError => st

/-- The loop exit condition checked at the end of every iteration
(`src/server/src/main.rs` lines 71-77): some chunk has been received and
more than `IDLE_TIMEOUT` has elapsed since the last newly accepted chunk. -/
def exitCond (st : ReceiverState) (now : Nat) : Bool :=
  !st.receivedChunks.isEmpty && decide (IDLE_TIMEOUT_MS < now - st.lastDataTime)

/-- The receive loop of `main_with_error` run over a finite script of ticks,
each an instant paired with a capture outcome.  Returns `some (i, st)` when
the loop breaks out while processing the `i`-th scripted tick (0-based) with
final state `st`, and `none` when the script is exhausted without the exit
condition ever holding. -/
def runLoop (hash : List Nat → Nat) (st : ReceiverState) :
    List (Nat × TickOutcome) → Option (Nat × ReceiverState)
  | [] => none
  | (now, out) :: rest =>
      let st' := processTick hash st out now
      if exitCond st' now then some (0, st')
      else (runLoop hash st' rest).map (fun p => (p.1 + 1, p.2))

/-- State of the receiver after processing a (prefix of a) tick script. -/
def procTicks (hash : List Nat → Nat) (st : ReceiverState)
    (ticks : List (Nat × TickOutcome)) : ReceiverState :=
  ticks.foldl (fun s t => processTick hash s t.2 t.1) st

/-- The per-pixel luminance conversion of `capture_and_detect_qr` in
`src/server/src/main.rs`: `(299*R + 587*G + 114*B) / 1000` in integer
arithmetic. -/
def luminance (r g b : Nat) : Nat := (299 * r + 587 * g + 114 * b) / 1000

/-- The value of the loop exit condition at scripted tick `j` (state after
processing ticks `0..j` inclusive, clock of tick `j`). -/
def loopGuard (hash : List Nat → Nat) (st : ReceiverState)
    (ticks : List (Nat × TickOutcome)) (j : Nat) : Bool :=
  exitCond (procTicks hash st (ticks.take (j + 1)))
    (ticks.getD j (0, TickOutcome.noSymbol)).1

/-- Feed the same decoded payload to the dedup tracker `N` times in a row
(at instant `now`). -/
def submitRepeat (hash : List Nat → Nat) (st : ReceiverState)
    (p : List Nat) (now : Nat) : Nat → ReceiverState
  | 0 => st
  | N + 1 => processTick hash (submitRepeat hash st p now N)
      (TickOutcome.decoded p) now

/-- Feed a sequence of decoded payloads to the dedup tracker in order.  The
clock argument is irrelevant to the dedup fields, so ticks are submitted at
instant 0. -/
def submitAll (hash : List Nat → Nat) (st : ReceiverState)
    (ps : List (List Nat)) : ReceiverState :=
  ps.foldl (fun s p => processTick hash s (TickOutcome.decoded p) 0) st

/-! Lemmas about the base64 alphabet. -/

theorem b64Val_b64Char : ∀ i, i < 64 → b64Val (b64Char i) = some i := by decide

theorem b64Char_ne_pad : ∀ i, i < 64 → b64Char i ≠ padChar := by decide

theorem b64Char_not_ws : ∀ i, i < 64 → isWs (b64Char i) = false := by decide

/-- Decoding inverts encoding on byte buffers (every element below 256). -/
theorem decodeB64_encodeB64 (B : List Nat) (hB : ∀ b ∈ B, b < 256) :
    decodeB64 (encodeB64 B) = some B := by
  induction B using encodeB64.induct with
  | case1 => rfl
  | case2 a =>
      have ha : a < 256 := hB a (by simp)
      have h1 := b64Val_b64Char (a / 4) (by omega)
      have h2 := b64Val_b64Char (a % 4 * 16) (by omega)
      simp only [encodeB64, decodeB64, h1, h2, if_pos rfl]
      have hm : a % 4 * 16 % 16 = 0 := Nat.mul_mod_left _ _
      simp only [hm, and_true, and_self, if_pos rfl, reduceIte]
      simp only [Option.some.injEq, List.cons.injEq, and_true]
      omega
  | case3 a b =>
      have ha : a < 256 := hB a (by simp)
      have hb : b < 256 := hB b (by simp)
      have h1 := b64Val_b64Char (a / 4) (by omega)
      have h2 := b64Val_b64Char (a % 4 * 16 + b / 16) (by omega)
      have h3 := b64Val_b64Char (b % 16 * 4) (by omega)
      have h3ne := b64Char_ne_pad (b % 16 * 4) (by omega)
      simp only [encodeB64, decodeB64, h1, h2, h3, if_neg h3ne, if_pos rfl]
      have hm : b % 16 * 4 % 4 = 0 := Nat.mul_mod_left _ _
      simp only [hm, and_true, and_self, if_pos rfl, reduceIte]
      simp only [Option.some.injEq, List.cons.injEq, and_true]
      constructor
      · omega
      · omega
  | case4 a b c rest ih =>
      have ha : a < 256 := hB a (by simp)
      have hb : b < 256 := hB b (by simp)
      have hc : c < 256 := hB c (by simp)
      have hrest : ∀ x ∈ rest, x < 256 := fun x hx => hB x (by simp [hx])
      have h1 := b64Val_b64Char (a / 4) (by omega)
      have h2 := b64Val_b64Char (a % 4 * 16 + b / 16) (by omega)
      have h3 := b64Val_b64Char (b % 16 * 4 + c / 64) (by omega)
      have h4 := b64Val_b64Char (c % 64) (by omega)
      have h3ne := b64Char_ne_pad (b % 16 * 4 + c / 64) (by omega)
      have h4ne := b64Char_ne_pad (c % 64) (by omega)
      simp only [encodeB64, decodeB64, h1, h2, h3, h4, if_neg h3ne, if_neg h4ne,
        ih hrest, Option.map_some']
      simp only [Option.some.injEq, List.cons.injEq, and_true]
      refine ⟨by omega, by omega, by omega⟩

/-! Lemmas about `split_data`. -/

/-- Concatenating the chunks produced by `split_data` restores the input. -/
theorem split_data_flatten (data : List Nat) (n : Nat) (hn : n ≠ 0) :
    (split_data data n).flatten = data := by
  induction data, n using split_data.induct with
  | case1 d => exact absurd rfl hn
  | case2 m hm => simp [split_data]
  | case3 d m hm hd ih =>
      rw [split_data, if_neg hm, if_neg hd]
      simp [ih hm, List.take_append_drop]

/-- `split_data` on a nonempty input yields a nonempty chunk list. -/
theorem split_data_ne_nil (data : List Nat) (n : Nat) (hn : n ≠ 0)
    (hd : data ≠ []) : split_data data n ≠ [] := by
  rw [split_data, if_neg hn, if_neg hd]
  simp

/-- The number of chunks is the ceiling of the data length over the chunk
size. -/
theorem split_data_length (data : List Nat) (n : Nat) (hn : n ≠ 0) :
    (split_data data n).length = (data.length + n - 1) / n := by
  induction data, n using split_data.induct with
  | case1 d => exact absurd rfl hn
  | case2 m hm =>
      rw [split_data, if_neg hm, if_pos rfl]
      have : m - 1 < m := by omega
      simp [Nat.div_eq_of_lt this]
  | case3 d m hm hd ih =>
      rw [split_data, if_neg hm, if_neg hd]
      simp only [List.length_cons, ih hm, List.length_drop]
      have hpos : 0 < d.length := List.length_pos.mpr hd
      rcases le_or_lt d.length m with hle | hlt
      · have h1 : d.length - m = 0 := by omega
        have h2 : (m - 1) / m = 0 := Nat.div_eq_of_lt (by omega)
        have h3 : d.length + m - 1 = (d.length - 1) + m := by omega
        rw [h1, h3]
        simp only [Nat.zero_add, h2]
        rw [Nat.add_div_right _ (by omega), Nat.div_eq_of_lt (by omega)]
      · have h3 : d.length - m + m - 1 = d.length - 1 := by omega
        have h4 : d.length + m - 1 = (d.length - 1) + m := by omega
        rw [h3, h4, Nat.add_div_right _ (by omega)]

/-- Every chunk except the last has length exactly `n`. -/
theorem split_data_dropLast_length (data : List Nat) (n : Nat) (hn : n ≠ 0) :
    ∀ c ∈ (split_data data n).dropLast, c.length = n := by
  induction data, n using split_data.induct with
  | case1 d => exact absurd rfl hn
  | case2 m hm => simp [split_data]
  | case3 d m hm hd ih =>
      intro c hc
      rw [split_data, if_neg hm, if_neg hd] at hc
      rcases le_or_lt d.length m with hle | hlt
      · have hdrop : d.drop m = [] := List.drop_eq_nil_of_le hle
        rw [hdrop] at hc
        simp [split_data] at hc
      · have hdrop : d.drop m ≠ [] := by
          intro h
          have := List.drop_eq_nil_iff.mp h
          omega
        have htail : split_data (d.drop m) m ≠ [] :=
          split_data_ne_nil _ _ hm hdrop
        rw [List.dropLast_cons_of_ne_nil htail] at hc
        rcases List.mem_cons.mp hc with hcase | hcase
        · subst hcase
          simp [List.length_take]
          omega
        · exact ih hm c hcase

/-- The last chunk is nonempty and no longer than `n`. -/
theorem split_data_getLast_length (data : List Nat) (n : Nat) (hn : n ≠ 0)
    (hd : data ≠ []) :
    1 ≤ ((split_data data n).getLastD []).length ∧
      ((split_data data n).getLastD []).length ≤ n := by
  induction data, n using split_data.induct with
  | case1 d => exact absurd rfl hn
  | case2 m hm => exact absurd rfl hd
  | case3 d m hm hde ih =>
      rw [split_data, if_neg hm, if_neg hde]
      rcases le_or_lt d.length m with hle | hlt
      · have hdrop : d.drop m = [] := List.drop_eq_nil_of_le hle
        have hlen : 0 < d.length := List.length_pos.mpr hde
        rw [hdrop]
        have h0 : split_data ([] : List Nat) m = [] := by
          rw [split_data]
          simp
        rw [h0]
        simp only [List.getLastD_cons, List.getLastD_nil, List.length_take]
        omega
      · have hdrop : d.drop m ≠ [] := by
          intro h
          have := List.drop_eq_nil_iff.mp h
          omega
        have htail := ih hm hdrop
        have hne : split_data (d.drop m) m ≠ [] :=
          split_data_ne_nil _ _ hm hdrop
        rw [List.getLastD_cons]
        cases hsd : split_data (d.drop m) m with
        | nil => exact absurd hsd hne
        | cons x xs =>
            rw [hsd] at htail
            simpa using htail

/-! Lemmas about trimming and the shape of encoder output. -/

theorem dropWhile_eq_self_of_not (p : Nat → Bool) (s : List Nat)
    (h : ∀ c ∈ s, p c = false) : s.dropWhile p = s := by
  cases s with
  | nil => rfl
  | cons a l =>
      rw [List.dropWhile_cons, h a (by simp)]
      simp

/-- Trimming a string with no whitespace characters is the identity. -/
theorem trimAscii_eq_self (s : List Nat) (h : ∀ c ∈ s, isWs c = false) :
    trimAscii s = s := by
  unfold trimAscii
  rw [dropWhile_eq_self_of_not _ _ h,
      dropWhile_eq_self_of_not _ _ (fun c hc => h c (List.mem_reverse.mp hc)),
      List.reverse_reverse]

/-- For arguments of 63 and above, `b64Char` yields the final alternative. -/
theorem b64Char_ge (j : Nat) (h : 63 ≤ j) : b64Char j = 47 := by
  unfold b64Char
  rw [if_neg (by omega), if_neg (by omega), if_neg (by omega), if_neg (by omega)]

/-- Every value of `b64Char` is attained on an in-range index. -/
theorem b64Char_bounded (j : Nat) : ∃ i, i < 64 ∧ b64Char j = b64Char i := by
  by_cases h : j < 64
  · exact ⟨j, h, rfl⟩
  · exact ⟨63, by omega,
      by rw [b64Char_ge j (by omega), b64Char_ge 63 (by omega)]⟩

/-- Every character emitted by the encoder is an alphabet character or the
padding character. -/
theorem encodeB64_chars (B : List Nat) :
    ∀ x ∈ encodeB64 B, (∃ i, i < 64 ∧ x = b64Char i) ∨ x = padChar := by
  induction B using encodeB64.induct with
  | case1 => simp [encodeB64]
  | case2 a =>
      intro x hx
      simp only [encodeB64, List.mem_cons, List.not_mem_nil, or_false] at hx
      rcases hx with h | h | h | h
      · obtain ⟨i, hi, he⟩ := b64Char_bounded (a / 4)
        exact Or.inl ⟨i, hi, by rw [h, he]⟩
      · obtain ⟨i, hi, he⟩ := b64Char_bounded (a % 4 * 16)
        exact Or.inl ⟨i, hi, by rw [h, he]⟩
      · exact Or.inr h
      · exact Or.inr h
  | case3 a b =>
      intro x hx
      simp only [encodeB64, List.mem_cons, List.not_mem_nil, or_false] at hx
      rcases hx with h | h | h | h
      · obtain ⟨i, hi, he⟩ := b64Char_bounded (a / 4)
        exact Or.inl ⟨i, hi, by rw [h, he]⟩
      · obtain ⟨i, hi, he⟩ := b64Char_bounded (a % 4 * 16 + b / 16)
        exact Or.inl ⟨i, hi, by rw [h, he]⟩
      · obtain ⟨i, hi, he⟩ := b64Char_bounded (b % 16 * 4)
        exact Or.inl ⟨i, hi, by rw [h, he]⟩
      · exact Or.inr h
  | case4 a b c rest ih =>
      intro x hx
      simp only [encodeB64, List.mem_cons] at hx
      rcases hx with h | h | h | h | h
      · obtain ⟨i, hi, he⟩ := b64Char_bounded (a / 4)
        exact Or.inl ⟨i, hi, by rw [h, he]⟩
      · obtain ⟨i, hi, he⟩ := b64Char_bounded (a % 4 * 16 + b / 16)
        exact Or.inl ⟨i, hi, by rw [h, he]⟩
      · obtain ⟨i, hi, he⟩ := b64Char_bounded (b % 16 * 4 + c / 64)
        exact Or.inl ⟨i, hi, by rw [h, he]⟩
      · obtain ⟨i, hi, he⟩ := b64Char_bounded (c % 64)
        exact Or.inl ⟨i, hi, by rw [h, he]⟩
      · exact ih x h

/-- The encoder emits no whitespace, so trimming its output (or any
concatenation of its chunks) is the identity. -/
theorem trimAscii_encodeB64 (B : List Nat) :
    trimAscii (encodeB64 B) = encodeB64 B := by
  refine trimAscii_eq_self _ (fun c hc => ?_)
  rcases encodeB64_chars B c hc with ⟨i, hi, rfl⟩ | rfl
  · exact b64Char_not_ws i hi
  · rfl

/-- The encoder output of a nonempty buffer is nonempty. -/
theorem encodeB64_ne_nil (B : List Nat) (h : B ≠ []) : encodeB64 B ≠ [] := by
  match B with
  | [] => exact absurd rfl h
  | [a] => simp [encodeB64]
  | [a, b] => simp [encodeB64]
  | a :: b :: c :: rest => simp [encodeB64]

/-! Claim theorems C1 and C2. -/

/-- C1: for every non-empty byte buffer `B`, encoding (base64 then chunking
at `CHUNK_SIZE`) and reassembling the chunks in production order with no
loss and no duplication (concatenate, trim, base64-decode) recovers `B`
exactly. -/
theorem c1_round_trip (B : List Nat) (hne : B ≠ []) (hb : ∀ b ∈ B, b < 256) :
    reassemble (split_data (to_base64 B) CHUNK_SIZE) = Except.ok B := by
  have hcs : CHUNK_SIZE ≠ 0 := by decide
  have henc : to_base64 B ≠ [] := encodeB64_ne_nil B hne
  have hchunks : split_data (to_base64 B) CHUNK_SIZE ≠ [] :=
    split_data_ne_nil _ _ hcs henc
  rw [reassemble, if_neg hchunks]
  simp only [restore_file, split_data_flatten _ _ hcs, to_base64,
    trimAscii_encodeB64, decodeB64_encodeB64 B hb]

/-- Witness for C1 at the concrete buffer `[1, 2, 3]`. -/
theorem c1_round_trip_witness :
    ([1, 2, 3] : List Nat) ≠ [] ∧ (∀ b ∈ ([1, 2, 3] : List Nat), b < 256) ∧
      reassemble (split_data (to_base64 [1, 2, 3]) CHUNK_SIZE)
        = Except.ok [1, 2, 3] :=
  ⟨by decide, by decide, c1_round_trip [1, 2, 3] (by decide) (by decide)⟩

/-- C2: for every non-empty byte buffer `B`, chunking `base64(B)` at
`CHUNK_SIZE` yields `ceil(len(base64(B)) / CHUNK_SIZE)` chunks; every chunk
but the last has length exactly `CHUNK_SIZE`, the last has length between 1
and `CHUNK_SIZE`, and the chunks concatenate back to `base64(B)`. -/
theorem c2_chunk_shape (B : List Nat) (hne : B ≠ []) :
    (split_data (to_base64 B) CHUNK_SIZE).length
        = ((to_base64 B).length + CHUNK_SIZE - 1) / CHUNK_SIZE ∧
      (∀ c ∈ (split_data (to_base64 B) CHUNK_SIZE).dropLast,
        c.length = CHUNK_SIZE) ∧
      1 ≤ ((split_data (to_base64 B) CHUNK_SIZE).getLastD []).length ∧
      ((split_data (to_base64 B) CHUNK_SIZE).getLastD []).length ≤ CHUNK_SIZE ∧
      (split_data (to_base64 B) CHUNK_SIZE).flatten = to_base64 B := by
  have hcs : CHUNK_SIZE ≠ 0 := by decide
  have henc : to_base64 B ≠ [] := encodeB64_ne_nil B hne
  exact ⟨split_data_length _ _ hcs, split_data_dropLast_length _ _ hcs,
    (split_data_getLast_length _ _ hcs henc).1,
    (split_data_getLast_length _ _ hcs henc).2,
    split_data_flatten _ _ hcs⟩

/-- Witness for C2 at the concrete buffer `[7]`. -/
theorem c2_chunk_shape_witness :
    ([7] : List Nat) ≠ [] ∧
      ((split_data (to_base64 [7]) CHUNK_SIZE).length
          = ((to_base64 [7]).length + CHUNK_SIZE - 1) / CHUNK_SIZE ∧
        (∀ c ∈ (split_data (to_base64 [7]) CHUNK_SIZE).dropLast,
          c.length = CHUNK_SIZE) ∧
        1 ≤ ((split_data (to_base64 [7]) CHUNK_SIZE).getLastD []).length ∧
        ((split_data (to_base64 [7]) CHUNK_SIZE).getLastD []).length
          ≤ CHUNK_SIZE ∧
        (split_data (to_base64 [7]) CHUNK_SIZE).flatten = to_base64 [7]) :=
  ⟨by decide, c2_chunk_shape [7] (by decide)⟩

/-! Claim theorems C5, C6, C10. -/

/-- C5: reassembly with zero chunks fails with the empty-sequence error;
reassembly of a non-empty sequence whose trimmed concatenation is not valid
base64 fails with the base64-decode error; a failed reassembly never
produces an output file (never returns `Except.ok`). -/
theorem c5_reassembly_errors (chunks : List (List Nat)) :
    reassemble ([] : List (List Nat))
        = Except.error ServerError.emptySequenceError ∧
      (chunks ≠ [] → decodeB64 (trimAscii chunks.flatten) = none →
        reassemble chunks = Except.error ServerError.base64DecodeError) ∧
      (∀ e, reassemble chunks = Except.error e →
        ∀ bytes, reassemble chunks ≠ Except.ok bytes) := by
  refine ⟨rfl, ?_, ?_⟩
  · intro hne hdec
    rw [reassemble, if_neg hne]
    simp only [restore_file, hdec]
  · intro e he bytes hok
    rw [he] at hok
    exact Except.noConfusion hok

/-- Witness for C5: the empty sequence and the non-base64 chunk `"!"`. -/
theorem c5_reassembly_errors_witness :
    reassemble ([] : List (List Nat))
        = Except.error ServerError.emptySequenceError ∧
      reassemble [[33]] = Except.error ServerError.base64DecodeError :=
  ⟨(c5_reassembly_errors [[33]]).1,
   (c5_reassembly_errors [[33]]).2.1 (by decide) (by decide)⟩

/-- C6: reading the source file fails with the read error when the file
cannot be opened or read, fails with the empty-input error when the file is
empty, and succeeds exactly on a readable non-empty file (returning its
contents). -/
theorem c6_read_file_errors (file : Option (List Nat)) :
    read_file none = Except.error ClientError.readError ∧
      read_file (some []) = Except.error ClientError.emptyInputError ∧
      (∀ bytes, read_file file = Except.ok bytes ↔
        file = some bytes ∧ bytes ≠ []) := by
  refine ⟨rfl, rfl, ?_⟩
  intro bytes
  cases file with
  | none => simp [read_file]
  | some b =>
      by_cases hb : b.length = 0
      · have hbe : b = [] := List.length_eq_zero.mp hb
        subst hbe
        simp [read_file]
      · have hbe : b ≠ [] := fun h => hb (by simp [h])
        simp only [read_file, if_neg hb]
        constructor
        · intro h
          have : b = bytes := by
            cases h
            rfl
          subst this
          exact ⟨rfl, hbe⟩
        · rintro ⟨hf, -⟩
          cases hf
          rfl

/-- C10: the per-pixel luminance is computed exactly as
`(299*R + 587*G + 114*B) / 1000`; for channel values at most 255 the result
is at most 255 (the narrowing cast to `u8` keeps the value unchanged) and
the `u32` intermediate sum stays below `2^32`. -/
theorem c10_luminance_bounds (r g b : Nat)
    (hr : r ≤ 255) (hg : g ≤ 255) (hb : b ≤ 255) :
    luminance r g b ≤ 255 ∧
      299 * r + 587 * g + 114 * b < 4294967296 ∧
      luminance r g b % 256 = luminance r g b := by
  unfold luminance
  refine ⟨by omega, by omega, Nat.mod_eq_of_lt (by omega)⟩

/-- Witness for C10 at the white pixel `(255, 255, 255)`. -/
theorem c10_luminance_bounds_witness :
    (255 : Nat) ≤ 255 ∧
      (luminance 255 255 255 ≤ 255 ∧
        299 * 255 + 587 * 255 + 114 * 255 < 4294967296 ∧
        luminance 255 255 255 % 256 = luminance 255 255 255) :=
  ⟨by decide, c10_luminance_bounds 255 255 255 (by decide) (by decide) (by decide)⟩

/-! Lemmas about the receive loop. -/

theorem procTicks_cons (hash : List Nat → Nat) (st : ReceiverState)
    (t : Nat × TickOutcome) (ts : List (Nat × TickOutcome)) :
    procTicks hash st (t :: ts)
      = procTicks hash (processTick hash st t.2 t.1) ts := rfl

theorem loopGuard_cons_zero (hash : List Nat → Nat) (st : ReceiverState)
    (now : Nat) (out : TickOutcome) (rest : List (Nat × TickOutcome)) :
    loopGuard hash st ((now, out) :: rest) 0
      = exitCond (processTick hash st out now) now := rfl

theorem loopGuard_cons_succ (hash : List Nat → Nat) (st : ReceiverState)
    (now : Nat) (out : TickOutcome) (rest : List (Nat × TickOutcome))
    (j : Nat) :
    loopGuard hash st ((now, out) :: rest) (j + 1)
      = loopGuard hash (processTick hash st out now) rest j := rfl

/-- The receive loop breaks exactly at the first tick whose exit condition
holds: when it returns, the exit tick satisfies the condition, no earlier
tick does, and the final state is the fold of the processed prefix; when it
runs out of ticks, no tick satisfied the condition. -/
theorem runLoop_exit_spec (hash : List Nat → Nat) (st : ReceiverState)
    (ticks : List (Nat × TickOutcome)) :
    (∀ i stF, runLoop hash st ticks = some (i, stF) →
      i < ticks.length ∧ loopGuard hash st ticks i = true ∧
      stF = procTicks hash st (ticks.take (i + 1)) ∧
      ∀ j < i, loopGuard hash st ticks j = false) ∧
    (runLoop hash st ticks = none →
      ∀ j < ticks.length, loopGuard hash st ticks j = false) := by
  induction ticks generalizing st with
  | nil =>
      constructor
      · intro i stF h
        exact absurd h (by simp [runLoop])
      · intro _ j hj
        simp at hj
  | cons t rest ih =>
      obtain ⟨now, out⟩ := t
      constructor
      · intro i stF h
        rw [runLoop] at h
        cases hg : exitCond (processTick hash st out now) now with
        | true =>
            rw [hg] at h
            simp only [if_pos rfl, reduceIte, Option.some.injEq,
              Prod.mk.injEq] at h
            obtain ⟨hi, hst⟩ := h
            subst hi
            subst hst
            refine ⟨by simp, ?_, rfl, ?_⟩
            · rw [loopGuard_cons_zero]; exact hg
            · intro j hj; omega
        | false =>
            rw [hg] at h
            simp only [Bool.false_eq_true, if_false, reduceIte] at h
            rcases Option.map_eq_some'.mp h with ⟨⟨i0, st0⟩, hrl, heq⟩
            injection heq with hi hst
            subst hi
            subst hst
            obtain ⟨hlen, hguard, hstate, hearlier⟩ :=
              (ih (processTick hash st out now)).1 i0 st0 hrl
            refine ⟨by simp; omega, ?_, ?_, ?_⟩
            · rw [loopGuard_cons_succ]; exact hguard
            · rw [List.take_succ_cons, procTicks_cons]; exact hstate
            · intro j hj
              cases j with
              | zero => rw [loopGuard_cons_zero]; exact hg
              | succ k =>
                  rw [loopGuard_cons_succ]
                  exact hearlier k (by omega)
      · intro h j hj
        rw [runLoop] at h
        cases hg : exitCond (processTick hash st out now) now with
        | true =>
            rw [hg] at h
            simp at h
        | false =>
            rw [hg] at h
            simp only [Bool.false_eq_true, if_false, reduceIte,
              Option.map_eq_none'] at h
            cases j with
            | zero => rw [loopGuard_cons_zero]; exact hg
            | succ k =>
                rw [loopGuard_cons_succ]
                exact (ih (processTick hash st out now)).2 h k
                  (by simp at hj; omega)

/-! Claim theorems C3 and C9. -/

/-- C3: for every scripted sequence of capture outcomes, the receive loop
leaves the collecting state exactly once, at the first tick on which more
than `IDLE_TIMEOUT` has elapsed since the last newly-accepted chunk while
the received sequence is non-empty — never at an earlier tick; and if no
tick satisfies that condition the loop never finalizes. -/
theorem c3_completion_timing (hash : List Nat → Nat) (t0 : Nat)
    (ticks : List (Nat × TickOutcome)) :
    (∀ i stF, runLoop hash (initState t0) ticks = some (i, stF) →
      i < ticks.length ∧ loopGuard hash (initState t0) ticks i = true ∧
      ∀ j < i, loopGuard hash (initState t0) ticks j = false) ∧
    (runLoop hash (initState t0) ticks = none →
      ∀ j < ticks.length, loopGuard hash (initState t0) ticks j = false) := by
  have h := runLoop_exit_spec hash (initState t0) ticks
  exact ⟨fun i stF hi =>
    ⟨(h.1 i stF hi).1, (h.1 i stF hi).2.1, (h.1 i stF hi).2.2.2⟩, h.2⟩

/-- Witness for C3: a decode at 100 ms followed by silence makes the loop
exit at the first tick past the timeout (the third tick, at 4000 ms) and at
no earlier tick. -/
theorem c3_completion_timing_witness :
    runLoop (fun l => l.length) (initState 0)
        [(0, TickOutcome.noSymbol), (100, TickOutcome.decoded [65]),
         (4000, TickOutcome.noSymbol)]
      = some (2, { receivedChunks := [[65]], seenHashes := [1],
                   lastDataTime := 100 }) ∧
    (2 < ([(0, TickOutcome.noSymbol), (100, TickOutcome.decoded [65]),
           (4000, TickOutcome.noSymbol)] :
            List (Nat × TickOutcome)).length ∧
      loopGuard (fun l => l.length) (initState 0)
        [(0, TickOutcome.noSymbol), (100, TickOutcome.decoded [65]),
         (4000, TickOutcome.noSymbol)] 2 = true ∧
      ∀ j < 2, loopGuard (fun l => l.length) (initState 0)
        [(0, TickOutcome.noSymbol), (100, TickOutcome.decoded [65]),
         (4000, TickOutcome.noSymbol)] j = false) :=
  ⟨rfl,
   (c3_completion_timing (fun l => l.length) 0
       [(0, TickOutcome.noSymbol), (100, TickOutcome.decoded [65]),
        (4000, TickOutcome.noSymbol)]).1 2
     { receivedChunks := [[65]], seenHashes := [1], lastDataTime := 100 }
     rfl⟩

/-- C9: whenever the receive loop exits into the reassembly phase, the
received sequence is non-empty, so the no-data guard after the loop can
never fire. -/
theorem c9_no_empty_completion (hash : List Nat → Nat) (t0 : Nat)
    (ticks : List (Nat × TickOutcome)) (i : Nat) (stF : ReceiverState)
    (h : runLoop hash (initState t0) ticks = some (i, stF)) :
    stF.receivedChunks ≠ [] ∧
      reassemble stF.receivedChunks
        ≠ Except.error ServerError.emptySequenceError := by
  obtain ⟨hlen, hguard, hstate, _⟩ :=
    (runLoop_exit_spec hash (initState t0) ticks).1 i stF h
  rw [loopGuard, ← hstate, exitCond, Bool.and_eq_true] at hguard
  have hne : stF.receivedChunks ≠ [] := by
    have h1 := hguard.1
    simp only [Bool.not_eq_true'] at h1
    exact fun he => by simp [he] at h1
  refine ⟨hne, ?_⟩
  rw [reassemble, if_neg hne, restore_file]
  cases hdec : decodeB64 (trimAscii stF.receivedChunks.flatten) with
  | none => simp [hdec]
  | some bs => simp [hdec]

/-- Witness for C9 on the same concrete three-tick script as C3. -/
theorem c9_no_empty_completion_witness :
    ({ receivedChunks := [[65]], seenHashes := [1],
       lastDataTime := 100 } : ReceiverState).receivedChunks ≠ [] ∧
      reassemble ({ receivedChunks := [[65]], seenHashes := [1],
                    lastDataTime := 100 } : ReceiverState).receivedChunks
        ≠ Except.error ServerError.emptySequenceError :=
  c9_no_empty_completion (fun l => l.length) 0
    [(0, TickOutcome.noSymbol), (100, TickOutcome.decoded [65]),
     (4000, TickOutcome.noSymbol)] 2
    { receivedChunks := [[65]], seenHashes := [1], lastDataTime := 100 } rfl

/-! Lemmas for the monotonic-growth invariant, and claim theorem C8. -/

theorem processTick_mono (hash : List Nat → Nat) (st : ReceiverState)
    (out : TickOutcome) (now : Nat) :
    (∀ x ∈ st.seenHashes, x ∈ (processTick hash st out now).seenHashes) ∧
    ∃ t, (processTick hash st out now).receivedChunks
      = st.receivedChunks ++ t := by
  cases out with
  | decoded data =>
      by_cases hm : hash data ∈ st.seenHashes
      · refine ⟨?_, ⟨[], ?_⟩⟩ <;> simp [processTick, hm]
      · refine ⟨?_, ⟨[data], ?_⟩⟩ <;> simp [processTick, hm]
        exact fun x hx => Or.inr hx
  | noSymbol => exact ⟨fun x hx => hx, ⟨[], by simp [processTick]⟩⟩
  | captureError => exact ⟨fun x hx => hx, ⟨[], by simp [processTick]⟩⟩

theorem processTick_inv (hash : List Nat → Nat) (st : ReceiverState)
    (out : TickOutcome) (now : Nat)
    (hnd : st.seenHashes.Nodup)
    (hlen : st.receivedChunks.length = st.seenHashes.length) :
    (processTick hash st out now).seenHashes.Nodup ∧
      (processTick hash st out now).receivedChunks.length
        = (processTick hash st out now).seenHashes.length := by
  cases out with
  | decoded data =>
      by_cases hm : hash data ∈ st.seenHashes
      · simpa [processTick, hm] using ⟨hnd, hlen⟩
      · simp [processTick, hm, List.nodup_cons, hnd, hlen]
  | noSymbol => exact ⟨hnd, hlen⟩
  | captureError => exact ⟨hnd, hlen⟩

theorem procTicks_inv (hash : List Nat → Nat)
    (ticks : List (Nat × TickOutcome)) :
    ∀ st : ReceiverState, st.seenHashes.Nodup →
      st.receivedChunks.length = st.seenHashes.length →
      (procTicks hash st ticks).seenHashes.Nodup ∧
        (procTicks hash st ticks).receivedChunks.length
          = (procTicks hash st ticks).seenHashes.length := by
  induction ticks with
  | nil => exact fun st h1 h2 => ⟨h1, h2⟩
  | cons t ts ih =>
      intro st h1 h2
      rw [procTicks_cons]
      obtain ⟨h1x, h2x⟩ := processTick_inv hash st t.2 t.1 h1 h2
      exact ih _ h1x h2x

/-- C8: across the receive loop the seen set and the received sequence only
grow — after each iteration every previously seen fingerprint is still
present and the received sequence is extended, never truncated — the seen
set never holds a duplicate, and the received-sequence length always equals
the seen-set size. -/
theorem c8_monotonic (hash : List Nat → Nat) (t0 : Nat)
    (ticks : List (Nat × TickOutcome)) (j : Nat) :
    (∀ x ∈ (procTicks hash (initState t0) (ticks.take j)).seenHashes,
       x ∈ (procTicks hash (initState t0) (ticks.take (j + 1))).seenHashes) ∧
    (∃ t, (procTicks hash (initState t0) (ticks.take (j + 1))).receivedChunks
       = (procTicks hash (initState t0) (ticks.take j)).receivedChunks ++ t) ∧
    (procTicks hash (initState t0) (ticks.take (j + 1))).seenHashes.Nodup ∧
    (procTicks hash (initState t0) (ticks.take (j + 1))).receivedChunks.length
       = (procTicks hash (initState t0)
            (ticks.take (j + 1))).seenHashes.length := by
  have hinv := procTicks_inv hash (ticks.take (j + 1)) (initState t0)
    (by simp [initState]) (by simp [initState])
  refine ⟨?_, ?_, hinv.1, hinv.2⟩
  · intro x hx
    rw [List.take_succ]
    cases hj : ticks[j]? with
    | none => simpa [procTicks, List.foldl_append, hj] using hx
    | some t =>
        simp only [procTicks, List.foldl_append, hj, Option.toList_some,
          List.foldl_cons, List.foldl_nil]
        exact (processTick_mono hash _ t.2 t.1).1 x hx
  · rw [List.take_succ]
    cases hj : ticks[j]? with
    | none => exact ⟨[], by simp [procTicks, List.foldl_append, hj]⟩
    | some t =>
        obtain ⟨tl, htl⟩ := (processTick_mono hash
          (procTicks hash (initState t0) (ticks.take j)) t.2 t.1).2
        refine ⟨tl, ?_⟩
        simpa [procTicks, List.foldl_append, hj] using htl

/-! Lemmas for the dedup tracker, and claim theorem C4. -/

theorem submitAll_cons (hash : List Nat → Nat) (st : ReceiverState)
    (p : List Nat) (ts : List (List Nat)) :
    submitAll hash st (p :: ts)
      = submitAll hash (processTick hash st (TickOutcome.decoded p) 0) ts := rfl

theorem processTick_fix (hash : List Nat → Nat) (st : ReceiverState)
    (p : List Nat) (now : Nat) (hm : hash p ∈ st.seenHashes) :
    processTick hash st (TickOutcome.decoded p) now = st := by
  simp [processTick, hm]

theorem processTick_new_seen (hash : List Nat → Nat) (st : ReceiverState)
    (p : List Nat) (now : Nat) (hm : hash p ∉ st.seenHashes) :
    (processTick hash st (TickOutcome.decoded p) now).seenHashes
      = hash p :: st.seenHashes := by
  simp [processTick, hm]

theorem processTick_mem_after (hash : List Nat → Nat) (st : ReceiverState)
    (p : List Nat) (now : Nat) :
    hash p ∈ (processTick hash st (TickOutcome.decoded p) now).seenHashes := by
  by_cases hm : hash p ∈ st.seenHashes
  · rw [processTick_fix hash st p now hm]
    exact hm
  · rw [processTick_new_seen hash st p now hm]
    exact List.mem_cons_self _ _

/-- Feeding the same payload more than once is the same as feeding it
once. -/
theorem submitRepeat_eq_one (hash : List Nat → Nat) (st : ReceiverState)
    (p : List Nat) (now : Nat) :
    ∀ N, 1 ≤ N → submitRepeat hash st p now N
      = processTick hash st (TickOutcome.decoded p) now := by
  intro N
  induction N with
  | zero => omega
  | succ k ihk =>
      intro _
      cases k with
      | zero => rfl
      | succ m =>
          rw [submitRepeat, ihk (by omega)]
          exact processTick_fix hash _ p now (processTick_mem_after hash st p now)

theorem submitRepeat_le (hash : List Nat → Nat) (st : ReceiverState)
    (p : List Nat) (now : Nat) (N : Nat) :
    (submitRepeat hash st p now N).receivedChunks.length
      ≤ st.receivedChunks.length + 1 := by
  cases N with
  | zero => simp [submitRepeat]
  | succ n =>
      rw [submitRepeat_eq_one hash st p now (n + 1) (by omega)]
      by_cases hm : hash p ∈ st.seenHashes
      · simp [processTick, hm]
      · simp [processTick, hm]

/-- The seen set after a submission sequence holds exactly the fingerprints
of the submitted payloads (and whatever was seen before). -/
theorem submitAll_seen_mem (hash : List Nat → Nat) (ps : List (List Nat)) :
    ∀ (st : ReceiverState) (x : Nat),
      x ∈ (submitAll hash st ps).seenHashes ↔
        x ∈ st.seenHashes ∨ x ∈ ps.map hash := by
  induction ps with
  | nil => simp [submitAll]
  | cons p ts ih =>
      intro st x
      rw [submitAll_cons, ih]
      by_cases hm : hash p ∈ st.seenHashes
      · rw [processTick_fix hash st p 0 hm]
        simp only [List.map_cons, List.mem_cons]
        constructor
        · rintro (h | h)
          · exact Or.inl h
          · exact Or.inr (Or.inr h)
        · rintro (h | h | h)
          · exact Or.inl h
          · exact Or.inl (by rw [h]; exact hm)
          · exact Or.inr h
      · rw [processTick_new_seen hash st p 0 hm]
        simp only [List.map_cons, List.mem_cons]
        constructor
        · rintro (h | h)
          · rcases h with h1 | h1
            · exact Or.inr (Or.inl h1)
            · exact Or.inl h1
          · exact Or.inr (Or.inr h)
        · rintro (h | h | h)
          · exact Or.inl (Or.inr h)
          · exact Or.inl (Or.inl h)
          · exact Or.inr h

theorem submitAll_nodup (hash : List Nat → Nat) (ps : List (List Nat)) :
    ∀ st : ReceiverState, st.seenHashes.Nodup →
      (submitAll hash st ps).seenHashes.Nodup := by
  induction ps with
  | nil => exact fun st h => h
  | cons p ts ih =>
      intro st h
      rw [submitAll_cons]
      refine ih _ ?_
      by_cases hm : hash p ∈ st.seenHashes
      · rw [processTick_fix hash st p 0 hm]
        exact h
      · rw [processTick_new_seen hash st p 0 hm]
        exact List.nodup_cons.mpr ⟨hm, h⟩

/-- C4: feeding the same payload to the dedup tracker `N` times grows the
received sequence by at most one; and when the fingerprint function is
collision-free on the submitted payloads, the seen-set size after any
submission sequence equals the number of distinct payloads submitted. -/
theorem c4_dedup_tracker (hash : List Nat → Nat) (st : ReceiverState)
    (p : List Nat) (now t0 : Nat) (N : Nat) (ps : List (List Nat))
    (hinj : ∀ p1 ∈ ps, ∀ p2 ∈ ps, hash p1 = hash p2 → p1 = p2) :
    (submitRepeat hash st p now N).receivedChunks.length
        ≤ st.receivedChunks.length + 1 ∧
      (submitAll hash (initState t0) ps).seenHashes.length
        = ps.dedup.length := by
  refine ⟨submitRepeat_le hash st p now N, ?_⟩
  have hnd : (submitAll hash (initState t0) ps).seenHashes.Nodup :=
    submitAll_nodup hash ps (initState t0) (by simp [initState])
  have hset : (submitAll hash (initState t0) ps).seenHashes.toFinset
      = ps.toFinset.image hash := by
    ext x
    simp [List.mem_toFinset, submitAll_seen_mem, initState, List.mem_map,
      Finset.mem_image]
  have h1 : (submitAll hash (initState t0) ps).seenHashes.length
      = (submitAll hash (initState t0) ps).seenHashes.toFinset.card :=
    (List.toFinset_card_of_nodup hnd).symm
  rw [h1, hset, Finset.card_image_of_injOn, List.card_toFinset]
  intro a ha b hb hab
  exact hinj a (List.mem_toFinset.mp ha) b (List.mem_toFinset.mp hb) hab

/-- Witness for C4: the head-byte fingerprint is injective on the payload
list `[[65], [66], [65]]`, which has two distinct payloads. -/
theorem c4_dedup_tracker_witness :
    (submitRepeat (fun l => l.headD 0) (initState 0) [65] 0 3).receivedChunks.length
        ≤ (initState 0).receivedChunks.length + 1 ∧
      (submitAll (fun l => l.headD 0) (initState 0)
          [[65], [66], [65]]).seenHashes.length
        = ([[65], [66], [65]] : List (List Nat)).dedup.length :=
  c4_dedup_tracker (fun l => l.headD 0) (initState 0) [65] 0 0 3
    [[65], [66], [65]] (by decide)

/-! Lemmas for the out-of-order scenario, and claim theorem C7.  The
concrete buffer is 2250 zero bytes followed by 2250 `0xFF` bytes: its base64
text is 3000 `A`s then 3000 `/`s, which splits into three chunks of 2000
characters. -/

theorem encodeB64_cons3 (a b c : Nat) (t : List Nat) :
    encodeB64 (a :: b :: c :: t)
      = b64Char (a / 4) :: b64Char (a % 4 * 16 + b / 16) ::
        b64Char (b % 16 * 4 + c / 64) :: b64Char (c % 64) :: encodeB64 t := rfl

theorem rep_shift3 (n : Nat) (a : Nat) (t : List Nat) :
    List.replicate (3 * n + 3) a ++ t
      = List.replicate (3 * n) a ++ (a :: a :: a :: t) := by
  rw [List.replicate_add, List.append_assoc]
  rfl

theorem rep_shift4 (n : Nat) (a : Nat) (t : List Nat) :
    List.replicate (4 * n + 4) a ++ t
      = List.replicate (4 * n) a ++ (a :: a :: a :: a :: t) := by
  rw [List.replicate_add, List.append_assoc]
  rfl

theorem encodeB64_rep_zero : ∀ (k : Nat) (t : List Nat),
    encodeB64 (List.replicate (3 * k) 0 ++ t)
      = List.replicate (4 * k) 65 ++ encodeB64 t := by
  intro k
  induction k with
  | zero => simp
  | succ n ih =>
      intro t
      rw [show 3 * (n + 1) = 3 * n + 3 by ring,
          show 4 * (n + 1) = 4 * n + 4 by ring,
          rep_shift3, rep_shift4, ih (0 :: 0 :: 0 :: t), encodeB64_cons3]
      norm_num [b64Char]

theorem encodeB64_rep_max : ∀ (k : Nat) (t : List Nat),
    encodeB64 (List.replicate (3 * k) 255 ++ t)
      = List.replicate (4 * k) 47 ++ encodeB64 t := by
  intro k
  induction k with
  | zero => simp
  | succ n ih =>
      intro t
      rw [show 3 * (n + 1) = 3 * n + 3 by ring,
          show 4 * (n + 1) = 4 * n + 4 by ring,
          rep_shift3, rep_shift4, ih (255 :: 255 :: 255 :: t), encodeB64_cons3]
      norm_num [b64Char]

theorem decodeB64_quad_A (rest : List Nat) :
    decodeB64 (65 :: 65 :: 65 :: 65 :: rest)
      = (decodeB64 rest).map (fun bs => 0 :: 0 :: 0 :: bs) := by
  simp [decodeB64, b64Val, padChar]

theorem decodeB64_quad_slash (rest : List Nat) :
    decodeB64 (47 :: 47 :: 47 :: 47 :: rest)
      = (decodeB64 rest).map (fun bs => 255 :: 255 :: 255 :: bs) := by
  simp [decodeB64, b64Val, padChar]

theorem decodeB64_rep_A : ∀ (k : Nat) (rest : List Nat),
    decodeB64 (List.replicate (4 * k) 65 ++ rest)
      = (decodeB64 rest).map (fun bs => List.replicate (3 * k) 0 ++ bs) := by
  intro k
  induction k with
  | zero =>
      intro rest
      simp only [Nat.mul_zero, List.replicate_zero, List.nil_append]
      cases decodeB64 rest <;> simp
  | succ n ih =>
      intro rest
      rw [show 3 * (n + 1) = 3 * n + 3 by ring,
          show 4 * (n + 1) = 4 * n + 4 by ring,
          rep_shift4, ih (65 :: 65 :: 65 :: 65 :: rest), decodeB64_quad_A,
          Option.map_map]
      congr 1
      funext bs
      show List.replicate (3 * n) _ ++ (_ :: _ :: _ :: bs) = _
      rw [rep_shift3]

theorem decodeB64_rep_slash : ∀ (k : Nat) (rest : List Nat),
    decodeB64 (List.replicate (4 * k) 47 ++ rest)
      = (decodeB64 rest).map (fun bs => List.replicate (3 * k) 255 ++ bs) := by
  intro k
  induction k with
  | zero =>
      intro rest
      simp only [Nat.mul_zero, List.replicate_zero, List.nil_append]
      cases decodeB64 rest <;> simp
  | succ n ih =>
      intro rest
      rw [show 3 * (n + 1) = 3 * n + 3 by ring,
          show 4 * (n + 1) = 4 * n + 4 by ring,
          rep_shift4, ih (47 :: 47 :: 47 :: 47 :: rest), decodeB64_quad_slash,
          Option.map_map]
      congr 1
      funext bs
      show List.replicate (3 * n) _ ++ (_ :: _ :: _ :: bs) = _
      rw [rep_shift3]



theorem rep_ne_nil (n a : Nat) (h : n ≠ 0) : List.replicate n a ≠ [] :=
  List.ne_nil_of_length_pos (by rw [List.length_replicate]; omega)

theorem encodeB64_bicolor : to_base64 (List.replicate 2250 0 ++ List.replicate 2250 255)
    = List.replicate 3000 65 ++ List.replicate 3000 47 := by
  show encodeB64 _ = _
  rw [show (2250 : Nat) = 3 * 750 by norm_num, encodeB64_rep_zero,
      (List.append_nil (List.replicate (3 * 750) (255 : Nat))).symm,
      encodeB64_rep_max,
      show encodeB64 [] = [] from rfl, List.append_nil,
      show (4 * 750 : Nat) = 3000 by norm_num]

theorem split_data_bicolor : split_data
    (List.replicate 3000 65 ++ List.replicate 3000 47) 2000
    = [List.replicate 2000 65,
       List.replicate 1000 65 ++ List.replicate 1000 47,
       List.replicate 2000 47] := by
  rw [split_data, if_neg (by norm_num),
      if_neg (List.append_ne_nil_of_left_ne_nil (rep_ne_nil 3000 65 (by norm_num)) _),
      List.take_append_of_le_length (by rw [List.length_replicate]; norm_num),
      List.take_replicate,
      show (2000 ⊓ 3000 : Nat) = 2000 by norm_num,
      List.drop_append_eq_append_drop, List.drop_replicate, List.drop_replicate,
      List.length_replicate,
      show (3000 - 2000 : Nat) = 1000 by norm_num,
      show (3000 - (2000 - 3000) : Nat) = 3000 by norm_num]
  rw [split_data, if_neg (by norm_num),
      if_neg (List.append_ne_nil_of_left_ne_nil (rep_ne_nil 1000 65 (by norm_num)) _),
      List.take_append_eq_append_take, List.take_replicate, List.length_replicate,
      show (2000 ⊓ 1000 : Nat) = 1000 by norm_num,
      show (2000 - 1000 : Nat) = 1000 by norm_num,
      List.take_replicate,
      show (1000 ⊓ 3000 : Nat) = 1000 by norm_num,
      List.drop_append_eq_append_drop, List.drop_replicate, List.length_replicate,
      show (1000 - 2000 : Nat) = 0 by norm_num,
      List.replicate_zero, List.nil_append, List.drop_replicate,
      show (2000 - 1000 : Nat) = 1000 by norm_num,
      show (3000 - 1000 : Nat) = 2000 by norm_num]
  rw [split_data, if_neg (by norm_num),
      if_neg (rep_ne_nil 2000 47 (by norm_num)),
      List.take_replicate,
      show (2000 ⊓ 2000 : Nat) = 2000 by norm_num,
      List.drop_replicate,
      show (2000 - 2000 : Nat) = 0 by norm_num,
      List.replicate_zero]
  rw [split_data, if_neg (by norm_num), if_pos rfl]


theorem reassemble_swapped_bicolor : reassemble
    [List.replicate 1000 65 ++ List.replicate 1000 47,
     List.replicate 2000 65, List.replicate 2000 47]
    = Except.ok (List.replicate 750 0 ++ (List.replicate 750 255 ++
        (List.replicate 1500 0 ++ List.replicate 1500 255))) := by
  rw [reassemble, if_neg (List.cons_ne_nil _ _)]
  have hflat : List.flatten
      [List.replicate 1000 (65 : Nat) ++ List.replicate 1000 47,
       List.replicate 2000 65, List.replicate 2000 47]
      = List.replicate 1000 65 ++ (List.replicate 1000 47 ++
          (List.replicate 2000 65 ++ List.replicate 2000 47)) := by
    simp only [List.flatten_cons, List.flatten_nil, List.append_nil,
      List.append_assoc]
  have htrim : trimAscii (List.replicate 1000 65 ++ (List.replicate 1000 47 ++
      (List.replicate 2000 65 ++ List.replicate 2000 47)))
      = List.replicate 1000 65 ++ (List.replicate 1000 47 ++
          (List.replicate 2000 65 ++ List.replicate 2000 47)) := by
    refine trimAscii_eq_self _ (fun c hc => ?_)
    simp only [List.mem_append] at hc
    rcases hc with hc | hc | hc | hc <;>
      rw [List.eq_of_mem_replicate hc] <;> rfl
  have hdec : decodeB64 (List.replicate 1000 65 ++ (List.replicate 1000 47 ++
      (List.replicate 2000 65 ++ List.replicate 2000 47)))
      = some (List.replicate 750 0 ++ (List.replicate 750 255 ++
          (List.replicate 1500 0 ++ List.replicate 1500 255))) := by
    rw [(List.append_nil (List.replicate 2000 (47 : Nat))).symm,
        show (1000 : Nat) = 4 * 250 by norm_num,
        show (2000 : Nat) = 4 * 500 by norm_num,
        decodeB64_rep_A, decodeB64_rep_slash, decodeB64_rep_A,
        decodeB64_rep_slash,
        show decodeB64 [] = some [] from rfl]
    simp only [Option.map_some', List.append_nil]
  simp only [restore_file, hflat, htrim, hdec]

theorem swapped_bytes_ne_bicolor : List.replicate 750 0 ++ (List.replicate 750 255 ++
      (List.replicate 1500 0 ++ List.replicate 1500 255))
    ≠ List.replicate 2250 (0 : Nat) ++ List.replicate 2250 255 := by
  intro h
  have h750 := congrArg (fun l => l[750]?) h
  simp only at h750
  rw [List.getElem?_append_right (by rw [List.length_replicate]),
      List.length_replicate,
      show (750 - 750 : Nat) = 0 by norm_num,
      List.getElem?_append_left (by rw [List.length_replicate]; norm_num),
      List.getElem?_replicate, if_pos (by norm_num),
      List.getElem?_append_left (by rw [List.length_replicate]; norm_num),
      List.getElem?_replicate, if_pos (by norm_num)] at h750
  exact absurd (Option.some.inj h750) (by norm_num)


/-- C7: there is a non-empty byte buffer that encodes into (at least) three
chunks and an out-of-order observation order `[1, 0, 2]` for which
reassembly succeeds — the concatenation decodes as base64 and an output is
produced — but the decoded bytes differ from the original buffer. -/
theorem c7_out_of_order_corruption :
    ∃ B : List Nat, B ≠ [] ∧ (∀ b ∈ B, b < 256) ∧
      ∃ c0 c1 c2 : List Nat,
        split_data (to_base64 B) CHUNK_SIZE = [c0, c1, c2] ∧
        ∃ bytes : List Nat,
          reassemble [c1, c0, c2] = Except.ok bytes ∧ bytes ≠ B := by
  refine ⟨List.replicate 2250 0 ++ List.replicate 2250 255, ?_, ?_,
    List.replicate 2000 65,
    List.replicate 1000 65 ++ List.replicate 1000 47,
    List.replicate 2000 47, ?_,
    List.replicate 750 0 ++ (List.replicate 750 255 ++
      (List.replicate 1500 0 ++ List.replicate 1500 255)), ?_, ?_⟩
  · exact List.append_ne_nil_of_left_ne_nil (rep_ne_nil 2250 0 (by norm_num)) _
  · intro b hb
    simp only [List.mem_append] at hb
    rcases hb with hb | hb <;> rw [List.eq_of_mem_replicate hb] <;> norm_num
  · show split_data (to_base64 _) 2000 = _
    rw [encodeB64_bicolor, split_data_bicolor]
  · exact reassemble_swapped_bicolor
  · exact swapped_bytes_ne_bicolor

end ScreenTools
